import Mathlib

/-!
Verification development for the AlgoCampus expense-splitting system.

The definitions below are shallow embeddings of the ledger and settlement
core of the repository:

* the split calculators of `ExpenseTracker.add_expense`
  (`projects/contracts/smart_contracts/expense_tracker/contract.py`) and of
  `ExpenseService.create_expense` (`backend/app/services/expense.py`);
* the signed-balance encoding of `ExpenseTracker._apply_balance_delta`,
  the packed balance store of `ExpenseTracker._update_balance_entry` and
  `ExpenseTracker._update_balances_for_expense`, and the decoder of
  `AlgorandService.get_user_balance`;
* the greedy settlement optimizer of
  `SettlementService.calculate_optimal_settlements`
  (`backend/app/services/settlement.py`);
* the settlement state machine of `SettlementExecutor`
  (`projects/contracts/smart_contracts/settlement/contract.py`).

Machine integers (AVM `UInt64`) are modelled as `Nat`; an AVM assertion
failure or arithmetic overflow aborts the transaction, which is modelled by
returning `none` (the stored state is unchanged on failure).
-/

namespace AlgoCampus

/-- Account addresses (32-byte Algorand addresses) are modelled as opaque
identifiers; `Nat` keeps every definition executable. -/
abbrev Addr := Nat

/-! ## Split calculators -/

/-- Share list computed by the while-loop of `ExpenseTracker.add_expense`
(contract.py lines 239-258): `base_share = amount / split_count`,
`remainder = amount % split_count`; the loop index `i` gets
`base_share + 1` when `i < remainder` and `base_share` otherwise. -/
def contractSplitShares (amount n : Nat) : List Nat :=
  (List.range n).map fun i =>
    if i < amount % n then amount / n + 1 else amount / n

/-- Share list computed by `ExpenseService.create_expense`
(expense.py lines 137-151): `split_amount = amount // len(split_with)`,
`remainder = amount % len(split_with)`; participant index `0` gets
`split_amount + remainder` and every other participant gets
`split_amount`. -/
def backendSplitShares (amount n : Nat) : List Nat :=
  (List.range n).map fun i =>
    if i = 0 then amount / n + amount % n else amount / n

theorem contractSplitShares_length (amount n : Nat) :
    (contractSplitShares amount n).length = n := by
  simp [contractSplitShares]

theorem backendSplitShares_length (amount n : Nat) :
    (backendSplitShares amount n).length = n := by
  simp [backendSplitShares]

theorem sum_range_map_if_lt (n b r : Nat) :
    ((List.range n).map fun i => if i < r then b + 1 else b).sum
      = n * b + min r n := by
  induction n with
  | zero => simp
  | succ n ih =>
    rw [List.range_succ, List.map_append, List.sum_append]
    simp only [List.map_cons, List.map_nil, List.sum_cons, List.sum_nil, ih]
    rw [Nat.succ_mul]
    by_cases h : n < r
    · rw [if_pos h]
      omega
    · rw [if_neg h]
      omega

theorem contractSplitShares_sum (amount n : Nat) (hn : 0 < n) :
    (contractSplitShares amount n).sum = amount := by
  rw [contractSplitShares, sum_range_map_if_lt]
  have hlt : amount % n < n := Nat.mod_lt _ hn
  rw [min_eq_left (Nat.le_of_lt hlt)]
  exact Nat.div_add_mod amount n

theorem sum_range_map_if_zero (m d r : Nat) :
    ((List.range (m + 1)).map fun i => if i = 0 then d + r else d).sum
      = (m + 1) * d + r := by
  rw [List.range_succ_eq_map, List.map_cons, List.sum_cons, List.map_map]
  have h1 : ((fun i => if i = 0 then d + r else d) ∘ Nat.succ) = fun _ : Nat => d := by
    funext i
    simp
  rw [h1, List.map_const', List.sum_replicate, List.length_range, smul_eq_mul]
  simp
  ring

theorem backendSplitShares_sum (amount n : Nat) (hn : 0 < n) :
    (backendSplitShares amount n).sum = amount := by
  obtain ⟨m, rfl⟩ : ∃ m, n = m + 1 := ⟨n - 1, by omega⟩
  rw [backendSplitShares, sum_range_map_if_zero]
  exact Nat.div_add_mod amount (m + 1)

/-! ## Encoded signed balances -/

/-- Sign bit of the encoding, `2 ** 63` in `_apply_balance_delta`. -/
def SIGN_BIT : Nat := 2 ^ 63

/-- Overflow ceiling, `2 ** 62` in `_apply_balance_delta`. -/
def MAX_MAGNITUDE : Nat := 2 ^ 62

/-- Size of the AVM `UInt64` field; an arithmetic result reaching this
bound aborts the transaction. -/
def U64_SIZE : Nat := 2 ^ 64

/-- Decoder used by `AlgorandService.get_user_balance`
(algorand_service.py lines 460-465): values below `2^63` are non-negative
balances; values from `2^63` up are negative with magnitude
`encoded - 2^63`. -/
def decodeBalance (encoded : Nat) : Int :=
  if encoded < SIGN_BIT then (encoded : Int)
  else -((encoded : Int) - (SIGN_BIT : Int))

/-- Magnitude of an encoded balance. -/
def encMagnitude (encoded : Nat) : Nat :=
  if encoded < SIGN_BIT then encoded else encoded - SIGN_BIT

/-- Shallow embedding of `ExpenseTracker._apply_balance_delta`
(contract.py lines 677-749).  A failed `assert` or a `UInt64` overflow
aborts the AVM transaction, modelled as `none`.  Note that the two
sign-flip branches perform no `MAX_MAGNITUDE` check; the debit flip can
still fail when `SIGN_BIT + new_magnitude` overflows the 64-bit field. -/
def applyBalanceDelta (current_balance delta : Nat) (is_credit : Bool) : Option Nat :=
  let is_negative : Bool := SIGN_BIT ≤ current_balance
  let magnitude := if is_negative then current_balance - SIGN_BIT else current_balance
  if is_credit then
    if is_negative then
      if magnitude ≤ delta then
        some (delta - magnitude)
      else
        some (SIGN_BIT + (magnitude - delta))
    else
      if magnitude + delta < MAX_MAGNITUDE then some (magnitude + delta) else none
  else
    if is_negative then
      if magnitude + delta < MAX_MAGNITUDE then some (SIGN_BIT + (magnitude + delta)) else none
    else
      if magnitude < delta then
        if SIGN_BIT + (delta - magnitude) < U64_SIZE then
          some (SIGN_BIT + (delta - magnitude))
        else none
      else
        some (magnitude - delta)

/-! ## Packed per-group balance store -/

/-- A stored balance entry: one 40-byte record of the packed group
balances box, modelled as an address paired with its encoded balance. -/
abbrev BalanceEntry := Addr × Nat

/-- The scan loop of `ExpenseTracker._update_balance_entry`
(contract.py lines 646-666): walk the packed entries in order, copying
entries whose address differs and replacing matching entries with the
delta applied; also report whether a match was found. -/
def updateEntries (address : Addr) (delta : Nat) (is_credit : Bool) :
    List BalanceEntry → Option (List BalanceEntry × Bool)
  | [] => some ([], false)
  | (a, b) :: rest =>
    if a = address then
      match applyBalanceDelta b delta is_credit with
      | none => none
      | some b' =>
        match updateEntries address delta is_credit rest with
        | none => none
        | some (rest', _) => some ((a, b') :: rest', true)
    else
      match updateEntries address delta is_credit rest with
      | none => none
      | some (rest', found) => some ((a, b) :: rest', found)

/-- Shallow embedding of `ExpenseTracker._update_balance_entry`
(contract.py lines 604-674): update the matching entries in place; if the
address has no entry, append one freshly created from a zero balance. -/
def updateBalanceEntry (balances : List BalanceEntry) (address : Addr)
    (delta : Nat) (is_credit : Bool) : Option (List BalanceEntry) :=
  match updateEntries address delta is_credit balances with
  | none => none
  | some (updated, true) => some updated
  | some (updated, false) =>
    match applyBalanceDelta 0 delta is_credit with
    | none => none
    | some b' => some (updated ++ [(address, b')])

/-- The debit loop of `ExpenseTracker._update_balances_for_expense`
(contract.py lines 583-598): participant `i` is debited
`base_share + 1` when `i < remainder` and `base_share` otherwise. -/
def debitParticipants (base_share remainder : Nat) :
    Nat → List Addr → List BalanceEntry → Option (List BalanceEntry)
  | _, [], balances => some balances
  | i, member :: rest, balances =>
    match updateBalanceEntry balances member
        (if i < remainder then base_share + 1 else base_share) false with
    | none => none
    | some balances' => debitParticipants base_share remainder (i + 1) rest balances'

/-- Shallow embedding of `ExpenseTracker._update_balances_for_expense`
(contract.py lines 537-601): credit the payer by the full amount, then
debit each participant by its share. -/
def updateBalancesForExpense (balances : List BalanceEntry) (payer : Addr)
    (amount : Nat) (split_with : List Addr) : Option (List BalanceEntry) :=
  let split_count := split_with.length
  let base_share := amount / split_count
  let remainder := amount % split_count
  match updateBalanceEntry balances payer amount true with
  | none => none
  | some balances' => debitParticipants base_share remainder 0 split_with balances'

/-- Shallow embedding of the `ExpenseTracker.add_expense` validations and
balance effect (contract.py lines 145-272) for a single group: the
amount must be positive, the note at most 100 characters, the split list
non-empty with at most 100 members, and the computed shares must sum to
the amount; then the group balances are updated.  Box bookkeeping of the
expense metadata and splits is orthogonal to the balances and omitted. -/
def postExpense (balances : List BalanceEntry) (payer : Addr)
    (amount : Nat) (note_length : Nat) (split_with : List Addr) :
    Option (List BalanceEntry) :=
  if amount = 0 then none
  else if 100 < note_length then none
  else if split_with.length = 0 then none
  else if 100 < split_with.length then none
  else if (contractSplitShares amount split_with.length).sum ≠ amount then none
  else updateBalancesForExpense balances payer amount split_with

/-- Sum of the decoded signed balances of a packed balance store. -/
def decodedSum (balances : List BalanceEntry) : Int :=
  (balances.map fun e => decodeBalance e.2).sum

/-- C2: for every positive amount and non-empty participant list within the
100-member cap, both the contract split and the backend split produce
shares that sum to exactly the expense amount. -/
theorem split_exactness (amount : Nat) (participants : List Addr)
    (hpos : 0 < amount) (hne : participants ≠ [])
    (hcap : participants.length ≤ 100) :
    (contractSplitShares amount participants.length).sum = amount ∧
    (backendSplitShares amount participants.length).sum = amount := by
  have hn : 0 < participants.length := List.length_pos.mpr hne
  exact ⟨contractSplitShares_sum amount _ hn, backendSplitShares_sum amount _ hn⟩

theorem split_exactness_witness :
    (contractSplitShares 100 ([1, 2, 3] : List Addr).length).sum = 100 ∧
    (backendSplitShares 100 ([1, 2, 3] : List Addr).length).sum = 100 :=
  split_exactness 100 [1, 2, 3] (by decide) (by decide) (by decide)

/-- C3 counterexample: splitting amount 5 among 3 participants, the
backend split of `ExpenseService.create_expense` yields shares `[3, 1, 1]`
whereas the claimed rule (`base + 1` for each of the first `remainder`
participants) yields `[2, 2, 1]`, so the claim fails on the backend. -/
theorem remainder_rule_counterexample :
    backendSplitShares 5 3 = [3, 1, 1] ∧
    ((List.range 3).map fun i => if i < 5 % 3 then 5 / 3 + 1 else 5 / 3) = [2, 2, 1] ∧
    backendSplitShares 5 3
      ≠ ((List.range 3).map fun i => if i < 5 % 3 then 5 / 3 + 1 else 5 / 3) := by
  decide

/-- C3 amended: the contract split gives `base + 1` to each of the first
`remainder` participants in order and `base` to the rest; the backend split
instead gives `base + remainder` to the first participant and `base` to
every other; both yield shares `{34, 33, 33}` for amount 100 split among
3 participants. -/
theorem remainder_rule_amended (amount n i : Nat) (hi : i < n) :
    (contractSplitShares amount n)[i]? =
      some (if i < amount % n then amount / n + 1 else amount / n) ∧
    (backendSplitShares amount n)[i]? =
      some (if i = 0 then amount / n + amount % n else amount / n) ∧
    contractSplitShares 100 3 = [34, 33, 33] ∧
    backendSplitShares 100 3 = [34, 33, 33] := by
  refine ⟨?_, ?_, by decide, by decide⟩
  · simp [contractSplitShares, List.getElem?_map, List.getElem?_range hi]
  · simp [backendSplitShares, List.getElem?_map, List.getElem?_range hi]

theorem remainder_rule_amended_witness :
    (contractSplitShares 100 3)[0]? =
      some (if 0 < 100 % 3 then 100 / 3 + 1 else 100 / 3) ∧
    (backendSplitShares 100 3)[0]? =
      some (if 0 = 0 then 100 / 3 + 100 % 3 else 100 / 3) ∧
    contractSplitShares 100 3 = [34, 33, 33] ∧
    backendSplitShares 100 3 = [34, 33, 33] :=
  remainder_rule_amended 100 3 0 (by decide)

/-- C5: on a validly encoded 64-bit balance, whenever the current
magnitude plus the delta stays below the overflow ceiling, a credit
succeeds and decodes to the old signed balance plus the delta, and a debit
succeeds and decodes to the old signed balance minus the delta — including
the sign-crossing cases. -/
theorem encoded_balance_arithmetic (b delta : Nat) (hb : b < U64_SIZE)
    (hsafe : encMagnitude b + delta < MAX_MAGNITUDE) :
    ((applyBalanceDelta b delta true).map decodeBalance
        = some (decodeBalance b + delta)) ∧
    ((applyBalanceDelta b delta false).map decodeBalance
        = some (decodeBalance b - delta)) := by
  simp only [encMagnitude, SIGN_BIT, MAX_MAGNITUDE, U64_SIZE] at hsafe hb
  simp only [applyBalanceDelta, decodeBalance, SIGN_BIT, MAX_MAGNITUDE, U64_SIZE,
    decide_eq_true_eq, if_true]
  constructor <;>
    · split_ifs at * <;>
        simp only [Option.map_some', Option.map_none', Option.some_inj,
          decodeBalance, SIGN_BIT] <;>
        first
          | (exfalso; omega)
          | (split_ifs <;> push_cast <;> omega)

theorem encoded_balance_arithmetic_witness :
    ((applyBalanceDelta (2 ^ 63 + 5) 7 true).map decodeBalance
        = some (decodeBalance (2 ^ 63 + 5) + 7)) ∧
    ((applyBalanceDelta (2 ^ 63 + 5) 7 false).map decodeBalance
        = some (decodeBalance (2 ^ 63 + 5) - 7)) :=
  encoded_balance_arithmetic (2 ^ 63 + 5) 7 (by norm_num [U64_SIZE])
    (by norm_num [encMagnitude, SIGN_BIT, MAX_MAGNITUDE])

/-- C6 (code bug): both sign-flip paths of `_apply_balance_delta` skip the
`MAX_MAGNITUDE` overflow assertion.  A debit of `2^62` against a zero
balance succeeds and leaves an encoded magnitude of `2^62`, and a credit of
`2^62 + 2` against an encoded balance of `-1` succeeds and leaves magnitude
`2^62 + 1`; the claim requires both operations to fail with an overflow
error. -/
theorem overflow_check_skipped_on_sign_flip :
    applyBalanceDelta 0 MAX_MAGNITUDE false = some (SIGN_BIT + MAX_MAGNITUDE) ∧
    MAX_MAGNITUDE ≤ encMagnitude (SIGN_BIT + MAX_MAGNITUDE) ∧
    applyBalanceDelta (SIGN_BIT + 1) (MAX_MAGNITUDE + 2) true
      = some (MAX_MAGNITUDE + 1) ∧
    MAX_MAGNITUDE ≤ encMagnitude (MAX_MAGNITUDE + 1) := by
  decide

/-- C1 (code bug): a sequence of two expense postings that both succeed
and leave the group with a nonzero decoded balance sum.  Address 0 posts
5 units split with address 1 (balances `0 ↦ +5`, `1 ↦ -5`); address 1 then
posts `2^63 + 6` units split between addresses 2 and 3.  The credit that
flips address 1 from negative to positive lands on `2^63 + 1`, which the
decoder reads as `-1`, so the decoded balances sum to `-(2^63 + 2)`,
not 0. -/
theorem zero_sum_invariant_violated :
    ((postExpense [] 0 5 0 [1]).bind fun b1 =>
        postExpense b1 1 (2 ^ 63 + 6) 0 [2, 3])
      = some [(0, 5), (1, 2 ^ 63 + 1),
          (2, 2 ^ 63 + 2 ^ 62 + 3), (3, 2 ^ 63 + 2 ^ 62 + 3)] ∧
    decodedSum [(0, 5), (1, 2 ^ 63 + 1),
        (2, 2 ^ 63 + 2 ^ 62 + 3), (3, 2 ^ 63 + 2 ^ 62 + 3)]
      = -(2 ^ 63 + 2) ∧
    (-(2 ^ 63 + 2) : Int) ≠ 0 := by
  decide

/-! ## Frame property of a single balance update -/

theorem updateEntries_spec (address : Addr) (delta : Nat) (is_credit : Bool) :
    ∀ (l l' : List BalanceEntry) (found : Bool),
      updateEntries address delta is_credit l = some (l', found) →
      l'.filter (fun p => p.1 ≠ address) = l.filter (fun p => p.1 ≠ address) ∧
      l'.map Prod.fst = l.map Prod.fst ∧
      (found = true ↔ address ∈ l.map Prod.fst) ∧
      (found = false → l' = l) := by
  intro l
  induction l with
  | nil =>
    intro l' found h
    simp only [updateEntries, Option.some_inj, Prod.mk.injEq] at h
    obtain ⟨rfl, rfl⟩ := h
    simp
  | cons hd tl ih =>
    intro l' found h
    obtain ⟨a, b⟩ := hd
    by_cases ha : a = address
    · rw [updateEntries, if_pos ha] at h
      cases hap : applyBalanceDelta b delta is_credit with
      | none => rw [hap] at h; exact absurd h (by simp)
      | some b' =>
        rw [hap] at h
        cases hrec : updateEntries address delta is_credit tl with
        | none => rw [hrec] at h; exact absurd h (by simp)
        | some p =>
          obtain ⟨rest', found'⟩ := p
          rw [hrec] at h
          simp only [Option.some_inj, Prod.mk.injEq] at h
          obtain ⟨rfl, rfl⟩ := h
          obtain ⟨hf, hm, _, _⟩ := ih rest' found' hrec
          refine ⟨?_, ?_, ?_, ?_⟩
          · simp only [List.filter_cons]
            rw [if_neg (by simp [ha]), if_neg (by simp [ha])]
            exact hf
          · simp [hm]
          · simp [ha]
          · intro hfalse; exact absurd hfalse (by simp)
    · rw [updateEntries, if_neg ha] at h
      cases hrec : updateEntries address delta is_credit tl with
      | none => rw [hrec] at h; exact absurd h (by simp)
      | some p =>
        obtain ⟨rest', found'⟩ := p
        rw [hrec] at h
        simp only [Option.some_inj, Prod.mk.injEq] at h
        obtain ⟨rfl, rfl⟩ := h
        obtain ⟨hf, hm, hfound, heq⟩ := ih rest' _ hrec
        refine ⟨?_, ?_, ?_, ?_⟩
        · simp only [List.filter_cons]
          rw [if_pos (by simp [ha]), if_pos (by simp [ha])]
          rw [hf]
        · simp [hm]
        · simp only [List.map_cons, List.mem_cons]
          constructor
          · intro ht; exact Or.inr (hfound.mp ht)
          · rintro (h0 | h0)
            · exact absurd h0.symm ha
            · exact hfound.mpr h0
        · intro hfalse
          rw [heq hfalse]

/-- C10: a single balance-entry update leaves every entry for a different
address identical and in the same relative order; when the target address
already has an entry the address sequence of the store is unchanged, and
when it has none, exactly one new entry (created from a zero balance) is
appended at the end and nothing else changes. -/
theorem update_balance_entry_frame (balances : List BalanceEntry)
    (address : Addr) (delta : Nat) (is_credit : Bool)
    (updated : List BalanceEntry)
    (h : updateBalanceEntry balances address delta is_credit = some updated) :
    updated.filter (fun p => p.1 ≠ address)
        = balances.filter (fun p => p.1 ≠ address) ∧
    (address ∈ balances.map Prod.fst →
      updated.map Prod.fst = balances.map Prod.fst) ∧
    (address ∉ balances.map Prod.fst →
      ∃ b', applyBalanceDelta 0 delta is_credit = some b' ∧
        updated = balances ++ [(address, b')]) := by
  rw [updateBalanceEntry] at h
  cases hu : updateEntries address delta is_credit balances with
  | none => rw [hu] at h; exact absurd h (by simp)
  | some p =>
    obtain ⟨l0, found⟩ := p
    rw [hu] at h
    obtain ⟨hf, hm, hfound, heq⟩ := updateEntries_spec address delta is_credit
      balances l0 found hu
    cases found with
    | true =>
      simp only [Option.some_inj] at h
      subst h
      exact ⟨hf, fun _ => hm, fun hnm => absurd (hfound.mp rfl) hnm⟩
    | false =>
      cases hap : applyBalanceDelta 0 delta is_credit with
      | none => rw [hap] at h; exact absurd h (by simp)
      | some b' =>
        rw [hap] at h
        simp only [Option.some_inj] at h
        subst h
        rw [heq rfl]
        refine ⟨?_, ?_, ?_⟩
        · rw [List.filter_append]
          simp
        · intro hmem
          exact absurd hmem (by simpa using (hfound).not.mp (by simp))
        · intro _
          exact ⟨b', rfl, rfl⟩

theorem update_balance_entry_frame_witness :
    ([(7, 10), (8, 20), (9, 4)] : List BalanceEntry).filter
        (fun p => p.1 ≠ 9)
        = ([(7, 10), (8, 20)] : List BalanceEntry).filter (fun p => p.1 ≠ 9) ∧
    ((9 : Addr) ∈ ([(7, 10), (8, 20)] : List BalanceEntry).map Prod.fst →
      ([(7, 10), (8, 20), (9, 4)] : List BalanceEntry).map Prod.fst
        = ([(7, 10), (8, 20)] : List BalanceEntry).map Prod.fst) ∧
    ((9 : Addr) ∉ ([(7, 10), (8, 20)] : List BalanceEntry).map Prod.fst →
      ∃ b', applyBalanceDelta 0 4 true = some b' ∧
        ([(7, 10), (8, 20), (9, 4)] : List BalanceEntry)
          = [(7, 10), (8, 20)] ++ [(9, b')]) :=
  update_balance_entry_frame [(7, 10), (8, 20)] 9 4 true
    [(7, 10), (8, 20), (9, 4)] (by decide)

/-! ## Settlement state machine -/

/-- On-chain settlement record, `SettlementInfo` of the SettlementExecutor
contract (settlement/contract.py lines 50-84).  The 32-byte payment
transaction id is modelled as an opaque `Nat`. -/
structure SettlementInfo where
  settlement_id : Nat
  expense_id : Nat
  group_id : Nat
  debtor : Addr
  creditor : Addr
  amount : Nat
  initiated_at : Nat
  executed_at : Nat
  executed : Bool
  payment_txn_id : Nat
  cancelled : Bool
  expires_at : Nat
  deriving DecidableEq

/-- Transaction-level environment of a `SettlementExecutor.execute_settlement`
call: the app call's group position and sender, the ledger timestamp, and
the fields of the payment transaction at group index 0. -/
structure ExecEnv where
  group_index : Nat
  latest_timestamp : Nat
  txn_sender : Addr
  pay_sender : Addr
  pay_receiver : Addr
  pay_amount : Nat
  pay_txn_id : Nat
  deriving DecidableEq

instance {ε α : Type} [DecidableEq ε] [DecidableEq α] :
    DecidableEq (Except ε α) := fun a b =>
  match a, b with
  | Except.ok x, Except.ok y =>
    if h : x = y then Decidable.isTrue (h ▸ rfl)
    else Decidable.isFalse (fun hc => h (Except.ok.inj hc))
  | Except.error x, Except.error y =>
    if h : x = y then Decidable.isTrue (h ▸ rfl)
    else Decidable.isFalse (fun hc => h (Except.error.inj hc))
  | Except.ok _, Except.error _ => Decidable.isFalse (fun hc => Except.noConfusion hc)
  | Except.error _, Except.ok _ => Decidable.isFalse (fun hc => Except.noConfusion hc)

/-- Typed failures of `execute_settlement`, one per `assert` message in
settlement/contract.py lines 373-404. -/
inductive ExecErr where
  | notInGroup
  | notFound
  | alreadyExecuted
  | wasCancelled
  | expired
  | senderMismatch
  | receiverMismatch
  | amountMismatch
  | signerMismatch
  deriving DecidableEq

/-- Shallow embedding of `SettlementExecutor.execute_settlement`
(settlement/contract.py lines 299-424), checks in source order.  The box
for the settlement id is `none` when absent.  On success the stored
record is returned with `executed` set, `executed_at` stamped, and the
payment transaction id recorded. -/
def executeSettlement (box : Option SettlementInfo) (env : ExecEnv) :
    Except ExecErr SettlementInfo :=
  if env.group_index ≠ 1 then .error .notInGroup
  else
    match box with
    | none => .error .notFound
    | some s =>
      if s.executed then .error .alreadyExecuted
      else if s.cancelled then .error .wasCancelled
      else if ¬ env.latest_timestamp ≤ s.expires_at then .error .expired
      else if env.pay_sender ≠ s.debtor then .error .senderMismatch
      else if env.pay_receiver ≠ s.creditor then .error .receiverMismatch
      else if env.pay_amount ≠ s.amount then .error .amountMismatch
      else if env.pay_sender ≠ env.txn_sender then .error .signerMismatch
      else .ok { s with
        executed := true
        executed_at := env.latest_timestamp
        payment_txn_id := env.pay_txn_id }

/-- One `execute_settlement` transaction as a state transition on the
settlement box: an AVM assertion failure reverts the transaction, so the
box is unchanged on error. -/
def executeStep (box : Option SettlementInfo) (env : ExecEnv) :
    Except ExecErr Unit × Option SettlementInfo :=
  match executeSettlement box env with
  | .ok s' => (.ok (), some s')
  | .error e => (.error e, box)

/-- Typed failures of the backend `SettlementService.execute_settlement`
(backend/app/services/settlement.py lines 155-264). -/
inductive BackendExecErr where
  | notFound
  | notAuthorized
  | alreadyCompleted
  | insufficientFunds
  deriving DecidableEq

/-- Database settlement row as used by
`SettlementService.execute_settlement`; `status` is the literal status
string of the row. -/
structure DbSettlement where
  from_address : Addr
  to_address : Addr
  amount : Nat
  status : String
  deriving DecidableEq

/-- Shallow embedding of the guard-and-commit path of
`SettlementService.execute_settlement` (settlement.py lines 177-250):
lookup, debtor check, already-completed check, fee-buffered balance
check; the on-chain group submission is the external transfer primitive
and is modelled as succeeding, after which the row is marked
completed. -/
def backendExecuteSettlement (row : Option DbSettlement) (caller : Addr)
    (balance : Nat) : Except BackendExecErr DbSettlement :=
  match row with
  | none => .error .notFound
  | some s =>
    if s.from_address ≠ caller then .error .notAuthorized
    else if s.status = "completed" then .error .alreadyCompleted
    else if balance < s.amount + 1000 then .error .insufficientFunds
    else .ok { s with status := "completed" }

/-- C7: when an `execute_settlement` call succeeds, a second execution
attempt on the resulting record fails with the typed already-executed
error and leaves the stored record unchanged, both on-chain (any
well-formed second call, i.e. one at group index 1) and in the backend
service; success therefore happens exactly once. -/
theorem execute_settlement_double_execution_guard
    (box : Option SettlementInfo) (env env' : ExecEnv) (s' : SettlementInfo)
    (hok : executeSettlement box env = .ok s')
    (hg : env'.group_index = 1)
    (row' : DbSettlement) (caller : Addr) (bal bal' : Nat)
    (hbok : ∃ row, backendExecuteSettlement (some row) caller bal = .ok row') :
    executeStep (some s') env' = (.error .alreadyExecuted, some s') ∧
    backendExecuteSettlement (some row') caller bal'
      = .error .alreadyCompleted := by
  have hexec : s'.executed = true := by
    rw [executeSettlement.eq_def] at hok
    split at hok
    · exact absurd hok (by simp)
    · split at hok
      · exact absurd hok (by simp)
      · split_ifs at hok <;>
          first
            | exact Except.noConfusion hok
            | (simp only [Except.ok.injEq] at hok; subst hok; rfl)
  have hfail : executeSettlement (some s') env' = .error .alreadyExecuted := by
    rw [executeSettlement.eq_def, if_neg (by simp [hg])]
    simp [hexec]
  constructor
  · rw [executeStep.eq_def, hfail]
  · obtain ⟨row, hrow⟩ := hbok
    rw [backendExecuteSettlement] at hrow
    split_ifs at hrow with h1 h2 h3
    all_goals try exact Except.noConfusion hrow
    simp only [Except.ok.injEq] at hrow
    subst hrow
    rw [backendExecuteSettlement, if_neg (by simpa using h1), if_pos rfl]

theorem execute_settlement_double_execution_guard_witness :
    executeStep
        (some { settlement_id := 0, expense_id := 0, group_id := 0,
                debtor := 1, creditor := 2, amount := 50,
                initiated_at := 10, executed_at := 20, executed := true,
                payment_txn_id := 77, cancelled := false, expires_at := 100 })
        { group_index := 1, latest_timestamp := 20, txn_sender := 1,
          pay_sender := 1, pay_receiver := 2, pay_amount := 50,
          pay_txn_id := 77 }
      = (.error .alreadyExecuted,
          some { settlement_id := 0, expense_id := 0, group_id := 0,
                 debtor := 1, creditor := 2, amount := 50,
                 initiated_at := 10, executed_at := 20, executed := true,
                 payment_txn_id := 77, cancelled := false,
                 expires_at := 100 }) ∧
    backendExecuteSettlement
        (some { from_address := 1, to_address := 2, amount := 50,
                status := "completed" }) 1 99999
      = .error .alreadyCompleted :=
  execute_settlement_double_execution_guard
    (some { settlement_id := 0, expense_id := 0, group_id := 0,
            debtor := 1, creditor := 2, amount := 50,
            initiated_at := 10, executed_at := 0, executed := false,
            payment_txn_id := 0, cancelled := false, expires_at := 100 })
    { group_index := 1, latest_timestamp := 20, txn_sender := 1,
      pay_sender := 1, pay_receiver := 2, pay_amount := 50, pay_txn_id := 77 }
    { group_index := 1, latest_timestamp := 20, txn_sender := 1,
      pay_sender := 1, pay_receiver := 2, pay_amount := 50, pay_txn_id := 77 }
    _ rfl rfl
    { from_address := 1, to_address := 2, amount := 50, status := "completed" }
    1 60000 99999
    ⟨{ from_address := 1, to_address := 2, amount := 50, status := "pending" },
      rfl⟩

/-- Typed failures of `SettlementExecutor.cleanup_expired_settlement`
(settlement/contract.py lines 463-493). -/
inductive CleanupErr where
  | notFound
  | notExpired
  | executedRecord
  deriving DecidableEq

/-- Shallow embedding of `SettlementExecutor.cleanup_expired_settlement`
(settlement/contract.py lines 463-493): the settlement must exist, be
past its expiry, and not be executed; on success the box is deleted. -/
def cleanupExpiredSettlement (box : Option SettlementInfo) (now : Nat) :
    Except CleanupErr Unit :=
  match box with
  | none => .error .notFound
  | some s =>
    if ¬ s.expires_at < now then .error .notExpired
    else if s.executed then .error .executedRecord
    else .ok ()

/-- A concrete settlement record that was cancelled before execution and
has expired. -/
def cancelledExpiredSettlement : SettlementInfo :=
  { settlement_id := 3, expense_id := 0, group_id := 0,
    debtor := 1, creditor := 2, amount := 50,
    initiated_at := 0, executed_at := 0, executed := false,
    payment_txn_id := 0, cancelled := true, expires_at := 10 }

/-- C9 counterexample: cleanup succeeds at time 11 on an expired record
that was cancelled — a record whose state is Cancelled, not Pending — so
"succeeds exactly when the state is Pending" fails on the code, which
checks only that the record is not executed. -/
theorem reclaim_gating_counterexample :
    cleanupExpiredSettlement (some cancelledExpiredSettlement) 11 = .ok () ∧
    cancelledExpiredSettlement.cancelled = true ∧
    cancelledExpiredSettlement.executed = false :=
  ⟨rfl, rfl, rfl⟩

/-- C9 amended: cleanup succeeds exactly when the settlement exists, the
current time is strictly after its expiry, and the record is not executed
(a Pending or a Cancelled record); it never succeeds on an executed
(Completed) record, which is retained. -/
theorem reclaim_gating (box : Option SettlementInfo) (now : Nat) :
    cleanupExpiredSettlement box now = .ok () ↔
      ∃ s, box = some s ∧ s.expires_at < now ∧ s.executed = false := by
  cases box with
  | none => simp [cleanupExpiredSettlement]
  | some s =>
    rw [cleanupExpiredSettlement]
    by_cases h1 : s.expires_at < now
    · rw [if_neg (by simpa using h1)]
      by_cases h2 : s.executed
      · rw [if_pos h2]
        constructor
        · intro h
          exact absurd h (by simp)
        · rintro ⟨s', hs', _, hexec⟩
          rw [Option.some_inj] at hs'
          subst hs'
          rw [h2] at hexec
          exact absurd hexec (by simp)
      · rw [if_neg h2]
        constructor
        · intro _
          exact ⟨s, rfl, h1, by simpa using h2⟩
        · intro _
          rfl
    · rw [if_pos (by simpa using h1)]
      constructor
      · intro h
        exact absurd h (by simp)
      · rintro ⟨s', hs', hexp, _⟩
        rw [Option.some_inj] at hs'
        subst hs'
        exact absurd hexp h1

theorem reclaim_gating_witness :
    cleanupExpiredSettlement (some cancelledExpiredSettlement) 12 = .ok () :=
  (reclaim_gating (some cancelledExpiredSettlement) 12).mpr
    ⟨cancelledExpiredSettlement, rfl, by decide, by decide⟩

/-! ## Greedy settlement optimizer -/

/-- A planned transfer, one entry of the list built by
`SettlementService.calculate_optimal_settlements`. -/
structure Transfer where
  from_address : Addr
  to_address : Addr
  amount : Nat
  deriving DecidableEq

/-- First entry holding the maximum value, as computed by Python's
`max(d, key=d.get)` over an insertion-ordered mapping: a later entry
replaces the running maximum only when strictly larger. -/
def argmaxFirst : List (Addr × Nat) → Option (Addr × Nat)
  | [] => none
  | p :: rest =>
    match argmaxFirst rest with
    | none => some p
    | some q => if p.2 < q.2 then some q else some p

theorem argmaxFirst_mem : ∀ (l : List (Addr × Nat)) (p : Addr × Nat),
    argmaxFirst l = some p → p ∈ l := by
  intro l
  induction l with
  | nil =>
    intro p h
    exact absurd h (by simp [argmaxFirst])
  | cons hd tl ih =>
    intro p h
    cases hm : argmaxFirst tl with
    | none =>
      simp only [argmaxFirst, hm, Option.some_inj] at h
      subst h
      exact List.mem_cons_self _ _
    | some q =>
      simp only [argmaxFirst, hm] at h
      by_cases hq : hd.2 < q.2
      · rw [if_pos hq, Option.some_inj] at h
        subst h
        exact List.mem_cons_of_mem _ (ih q hm)
      · rw [if_neg hq, Option.some_inj] at h
        subst h
        exact List.mem_cons_self _ _

/-- The maximum entry, with a default for the empty mapping (the loop
never selects from an empty mapping). -/
def argmaxD (l : List (Addr × Nat)) : Addr × Nat :=
  (argmaxFirst l).getD (0, 0)

theorem argmaxD_mem (l : List (Addr × Nat)) (h : l ≠ []) : argmaxD l ∈ l := by
  cases l with
  | nil => exact absurd rfl h
  | cons hd tl =>
    cases hm : argmaxFirst tl with
    | none => simp [argmaxD, argmaxFirst, hm]
    | some q =>
      by_cases hlt : hd.2 < q.2
      · simp only [argmaxD, argmaxFirst, hm, if_pos hlt, Option.getD_some]
        exact List.mem_cons_of_mem _ (argmaxFirst_mem tl q hm)
      · simp only [argmaxD, argmaxFirst, hm, if_neg hlt, Option.getD_some]
        exact List.mem_cons_self _ _

/-- Effect of one loop iteration on one of the two mappings:
`d[a] -= ...; if d[a] == 0: del d[a]`, modelled on the insertion-ordered
entry list: a zero result deletes the entry, a nonzero result updates it
in place. -/
def setOrDrop (l : List (Addr × Nat)) (a : Addr) (v : Nat) : List (Addr × Nat) :=
  if v = 0 then l.filter (fun p => p.1 ≠ a)
  else l.map (fun p => if p.1 = a then (a, v) else p)

/-- Address sequence of an entry list. -/
def keysOf (l : List (Addr × Nat)) : List Addr := l.map Prod.fst

/-- Total of the values of an entry list. -/
def sumVals (l : List (Addr × Nat)) : Nat := (l.map Prod.snd).sum

/-- Ordered lookup in an entry list. -/
def lookupVal : List (Addr × Nat) → Addr → Option Nat
  | [], _ => none
  | (k, v) :: tl, a => if k = a then some v else lookupVal tl a

theorem setOrDrop_length_le (l : List (Addr × Nat)) (a : Addr) (v : Nat) :
    (setOrDrop l a v).length ≤ l.length := by
  rw [setOrDrop]
  split_ifs
  · exact List.length_filter_le _ _
  · rw [List.length_map]

theorem setOrDrop_length_drop (l : List (Addr × Nat)) (p : Addr × Nat)
    (hmem : p ∈ l) : (setOrDrop l p.1 0).length < l.length := by
  rw [setOrDrop, if_pos rfl]
  rw [List.length_filter_lt_length_iff_exists]
  exact ⟨p, hmem, by simp⟩

theorem setOrDrop_length_set (l : List (Addr × Nat)) (a : Addr) (v : Nat)
    (hv : v ≠ 0) : (setOrDrop l a v).length = l.length := by
  rw [setOrDrop, if_neg hv, List.length_map]

/-- Shallow embedding of the `while creditors and debtors` loop of
`SettlementService.calculate_optimal_settlements` (settlement.py lines
396-422): pick the largest creditor and the largest debtor (first entry
on ties), settle the minimum of the two, record the transfer, decrement
both, and drop any party that reaches exactly zero. -/
def greedyLoop (creditors debtors : List (Addr × Nat)) : List Transfer :=
  if h : creditors = [] ∨ debtors = [] then []
  else
    Transfer.mk (argmaxD debtors).1 (argmaxD creditors).1
        (min (argmaxD creditors).2 (argmaxD debtors).2) ::
      greedyLoop
        (setOrDrop creditors (argmaxD creditors).1
          ((argmaxD creditors).2 - min (argmaxD creditors).2 (argmaxD debtors).2))
        (setOrDrop debtors (argmaxD debtors).1
          ((argmaxD debtors).2 - min (argmaxD creditors).2 (argmaxD debtors).2))
termination_by creditors.length + debtors.length
decreasing_by
  push_neg at h
  obtain ⟨hc, hd⟩ := h
  have hcm := argmaxD_mem creditors hc
  have hdm := argmaxD_mem debtors hd
  rcases Nat.le_total (argmaxD creditors).2 (argmaxD debtors).2 with hle | hle
  · have h1 : (argmaxD creditors).2 - min (argmaxD creditors).2 (argmaxD debtors).2
        = 0 := by omega
    rw [h1]
    have h2 := setOrDrop_length_drop creditors (argmaxD creditors) hcm
    have h3 := setOrDrop_length_le debtors (argmaxD debtors).1
      ((argmaxD debtors).2 - min (argmaxD creditors).2 (argmaxD debtors).2)
    omega
  · have h1 : (argmaxD debtors).2 - min (argmaxD creditors).2 (argmaxD debtors).2
        = 0 := by omega
    rw [h1]
    have h2 := setOrDrop_length_drop debtors (argmaxD debtors) hdm
    have h3 := setOrDrop_length_le creditors (argmaxD creditors).1
      ((argmaxD creditors).2 - min (argmaxD creditors).2 (argmaxD debtors).2)
    omega

/-- Creditor mapping built at settlement.py lines 390: members with a
positive balance, in order, with their credit. -/
def creditorsOf (balances : List (Addr × Int)) : List (Addr × Nat) :=
  balances.filterMap fun p => if 0 < p.2 then some (p.1, p.2.toNat) else none

/-- Debtor mapping built at settlement.py line 391: members with a
negative balance, in order, with the magnitude of their debt. -/
def debtorsOf (balances : List (Addr × Int)) : List (Addr × Nat) :=
  balances.filterMap fun p => if p.2 < 0 then some (p.1, (-p.2).toNat) else none

/-- Shallow embedding of the plan computation of
`SettlementService.calculate_optimal_settlements` (settlement.py lines
389-428), starting from the signed balance vector of the group. -/
def calculateOptimalSettlements (balances : List (Addr × Int)) : List Transfer :=
  greedyLoop (creditorsOf balances) (debtorsOf balances)

/-- Total amount planned. -/
def sumAmounts (plan : List Transfer) : Nat := (plan.map Transfer.amount).sum

/-- Applying one planned transfer to a balance vector: the debtor's
balance increases by the amount and the creditor's decreases by it, each
moving toward zero. -/
def applyTransfer (t : Transfer) (b : Addr → Int) : Addr → Int :=
  fun a =>
    if a = t.from_address then b a + t.amount
    else if a = t.to_address then b a - t.amount
    else b a

/-- Applying a whole plan in order. -/
def applyPlan (plan : List Transfer) (b : Addr → Int) : Addr → Int :=
  plan.foldl (fun acc t => applyTransfer t acc) b

/-- Ordered lookup in a signed balance vector. -/
def lookupBal : List (Addr × Int) → Addr → Option Int
  | [], _ => none
  | (k, v) :: tl, a => if k = a then some v else lookupBal tl a

/-- Value of an optional signed balance, zero when absent. -/
def intOfZ : Option Int → Int
  | some v => v
  | none => 0

/-- The balance of a member in the group's balance vector, zero when
absent. -/
def balanceFn (balances : List (Addr × Int)) (a : Addr) : Int :=
  intOfZ (lookupBal balances a)

theorem intOfZ_some (v : Int) : intOfZ (some v) = v := rfl

theorem intOfZ_none : intOfZ none = 0 := rfl

/-- Value of an optional magnitude, zero when absent. -/
def intOf : Option Nat → Int
  | some v => (v : Int)
  | none => 0

/-- Signed balance represented by a creditor mapping and a debtor
mapping. -/
def balOf (cs ds : List (Addr × Nat)) (a : Addr) : Int :=
  intOf (lookupVal cs a) - intOf (lookupVal ds a)

theorem intOf_some (v : Nat) : intOf (some v) = (v : Int) := rfl

theorem intOf_none : intOf none = 0 := rfl

/-- Loop invariant of the greedy netting loop: the two mappings have
disjoint, duplicate-free keys, hold only positive values, and have equal
totals. -/
def GreedyInv (cs ds : List (Addr × Nat)) : Prop :=
  (keysOf cs ++ keysOf ds).Nodup ∧
  (∀ p ∈ cs, 0 < p.2) ∧ (∀ p ∈ ds, 0 < p.2) ∧
  sumVals cs = sumVals ds

theorem filter_ne_of_not_mem_keys (l : List (Addr × Nat)) (a : Addr)
    (h : a ∉ keysOf l) : l.filter (fun p => p.1 ≠ a) = l := by
  induction l with
  | nil => rfl
  | cons hd tl ih =>
    rw [keysOf, List.map_cons, List.mem_cons] at h
    push_neg at h
    rw [List.filter_cons, if_pos (by simp; exact fun hh => h.1 hh.symm)]
    rw [ih (by simpa [keysOf] using h.2)]

theorem map_set_of_not_mem_keys (l : List (Addr × Nat)) (a : Addr) (w : Nat)
    (h : a ∉ keysOf l) :
    l.map (fun p => if p.1 = a then (a, w) else p) = l := by
  induction l with
  | nil => rfl
  | cons hd tl ih =>
    rw [keysOf, List.map_cons, List.mem_cons] at h
    push_neg at h
    rw [List.map_cons, if_neg (fun hh => h.1 hh.symm)]
    rw [ih (by simpa [keysOf] using h.2)]

theorem keysOf_map_set (l : List (Addr × Nat)) (a : Addr) (w : Nat) :
    keysOf (l.map (fun p => if p.1 = a then (a, w) else p)) = keysOf l := by
  rw [keysOf, keysOf, List.map_map]
  apply List.map_congr_left
  intro p _
  by_cases hp : p.1 = a
  · simp [hp]
  · simp [hp]

theorem keysOf_setOrDrop_sublist (l : List (Addr × Nat)) (a : Addr) (v : Nat) :
    List.Sublist (keysOf (setOrDrop l a v)) (keysOf l) := by
  rw [setOrDrop]
  split_ifs with hv
  · exact List.Sublist.map Prod.fst (List.filter_sublist l)
  · rw [keysOf_map_set]

theorem setOrDrop_all_pos (l : List (Addr × Nat)) (a : Addr) (v : Nat)
    (hl : ∀ p ∈ l, 0 < p.2) : ∀ p ∈ setOrDrop l a v, 0 < p.2 := by
  intro p hp
  rw [setOrDrop] at hp
  split_ifs at hp with hv
  · exact hl p (List.mem_of_mem_filter hp)
  · obtain ⟨q, hq, hfq⟩ := List.mem_map.mp hp
    by_cases hk : q.1 = a
    · rw [if_pos hk] at hfq
      rw [← hfq]
      simpa using Nat.pos_of_ne_zero hv
    · rw [if_neg hk] at hfq
      rw [← hfq]
      exact hl q hq

theorem sum_filter_ne (l : List (Addr × Nat)) (a : Addr) (v : Nat)
    (hnd : (keysOf l).Nodup) (hmem : (a, v) ∈ l) :
    sumVals (l.filter (fun p => p.1 ≠ a)) + v = sumVals l := by
  induction l with
  | nil => simp at hmem
  | cons hd tl ih =>
    obtain ⟨k, u⟩ := hd
    rw [keysOf, List.map_cons, List.nodup_cons] at hnd
    obtain ⟨hhd, htl⟩ := hnd
    rw [List.mem_cons, Prod.mk.injEq] at hmem
    rw [List.filter_cons]
    rcases hmem with ⟨h1, h2⟩ | hmem
    · subst h1
      subst h2
      rw [if_neg (by simp)]
      rw [filter_ne_of_not_mem_keys tl a (by rw [keysOf]; exact hhd)]
      simp only [sumVals, List.map_cons, List.sum_cons]
      omega
    · have hk : k ≠ a := by
        intro hk
        rw [← hk] at hmem
        exact hhd (List.mem_map.mpr ⟨(k, v), hmem, rfl⟩)
      rw [if_pos (by simp [hk])]
      have hih := ih htl hmem
      simp only [sumVals, List.map_cons, List.sum_cons] at hih ⊢
      omega

theorem sum_map_set (l : List (Addr × Nat)) (a : Addr) (v w : Nat)
    (hnd : (keysOf l).Nodup) (hmem : (a, v) ∈ l) :
    sumVals (l.map (fun p => if p.1 = a then (a, w) else p)) + v
      = sumVals l + w := by
  induction l with
  | nil => simp at hmem
  | cons hd tl ih =>
    obtain ⟨k, u⟩ := hd
    rw [keysOf, List.map_cons, List.nodup_cons] at hnd
    obtain ⟨hhd, htl⟩ := hnd
    rw [List.mem_cons, Prod.mk.injEq] at hmem
    rw [List.map_cons]
    rcases hmem with ⟨h1, h2⟩ | hmem
    · subst h1
      subst h2
      rw [if_pos (by simp)]
      rw [map_set_of_not_mem_keys tl a w (by rw [keysOf]; exact hhd)]
      simp only [sumVals, List.map_cons, List.sum_cons]
      omega
    · have hk : k ≠ a := by
        intro hk
        rw [← hk] at hmem
        exact hhd (List.mem_map.mpr ⟨(k, v), hmem, rfl⟩)
      rw [if_neg (by simpa using hk)]
      have hih := ih htl hmem
      simp only [sumVals, List.map_cons, List.sum_cons] at hih ⊢
      omega

theorem setOrDrop_sumVals (l : List (Addr × Nat)) (a : Addr) (v w : Nat)
    (hnd : (keysOf l).Nodup) (hmem : (a, v) ∈ l) :
    sumVals (setOrDrop l a w) + v = sumVals l + w := by
  rw [setOrDrop]
  split_ifs with hw
  · subst hw
    rw [sum_filter_ne l a v hnd hmem]
    omega
  · exact sum_map_set l a v w hnd hmem

theorem length_filter_ne (l : List (Addr × Nat)) (a : Addr) (v : Nat)
    (hnd : (keysOf l).Nodup) (hmem : (a, v) ∈ l) :
    (l.filter (fun p => p.1 ≠ a)).length + 1 = l.length := by
  induction l with
  | nil => simp at hmem
  | cons hd tl ih =>
    obtain ⟨k, u⟩ := hd
    rw [keysOf, List.map_cons, List.nodup_cons] at hnd
    obtain ⟨hhd, htl⟩ := hnd
    rw [List.mem_cons, Prod.mk.injEq] at hmem
    rw [List.filter_cons]
    rcases hmem with ⟨h1, h2⟩ | hmem
    · subst h1
      subst h2
      rw [if_neg (by simp)]
      rw [filter_ne_of_not_mem_keys tl a (by rw [keysOf]; exact hhd)]
      simp
    · have hk : k ≠ a := by
        intro hk
        rw [← hk] at hmem
        exact hhd (List.mem_map.mpr ⟨(k, v), hmem, rfl⟩)
      rw [if_pos (by simp [hk])]
      have hih := ih htl hmem
      simp only [List.length_cons]
      omega

theorem setOrDrop_length_zero (l : List (Addr × Nat)) (a : Addr) (v : Nat)
    (hnd : (keysOf l).Nodup) (hmem : (a, v) ∈ l) :
    (setOrDrop l a 0).length + 1 = l.length := by
  rw [setOrDrop, if_pos rfl]
  exact length_filter_ne l a v hnd hmem

theorem lookupVal_eq_none (l : List (Addr × Nat)) (a : Addr)
    (h : a ∉ keysOf l) : lookupVal l a = none := by
  induction l with
  | nil => rfl
  | cons hd tl ih =>
    obtain ⟨k, v⟩ := hd
    rw [keysOf, List.map_cons, List.mem_cons] at h
    push_neg at h
    rw [lookupVal, if_neg (fun hh => h.1 hh.symm)]
    exact ih (by rw [keysOf]; exact h.2)

theorem lookupVal_of_mem (l : List (Addr × Nat)) (a : Addr) (v : Nat)
    (hnd : (keysOf l).Nodup) (hmem : (a, v) ∈ l) :
    lookupVal l a = some v := by
  induction l with
  | nil => simp at hmem
  | cons hd tl ih =>
    obtain ⟨k, u⟩ := hd
    rw [keysOf, List.map_cons, List.nodup_cons] at hnd
    obtain ⟨hhd, htl⟩ := hnd
    rw [List.mem_cons, Prod.mk.injEq] at hmem
    rcases hmem with ⟨h1, h2⟩ | hmem
    · subst h1
      subst h2
      rw [lookupVal, if_pos rfl]
    · have hk : k ≠ a := by
        intro hk
        rw [← hk] at hmem
        exact hhd (List.mem_map.mpr ⟨(k, v), hmem, rfl⟩)
      rw [lookupVal, if_neg hk]
      exact ih htl hmem

theorem lookupVal_filter_self (l : List (Addr × Nat)) (a : Addr) :
    lookupVal (l.filter (fun p => p.1 ≠ a)) a = none := by
  apply lookupVal_eq_none
  intro hmm
  obtain ⟨p, hp, hpa⟩ := List.mem_map.mp hmm
  have hpred := List.of_mem_filter hp
  simp only [decide_eq_true_eq] at hpred
  exact hpred hpa

theorem lookupVal_map_set_self (l : List (Addr × Nat)) (a : Addr) (v w : Nat)
    (hnd : (keysOf l).Nodup) (hmem : (a, v) ∈ l) :
    lookupVal (l.map (fun p => if p.1 = a then (a, w) else p)) a = some w := by
  induction l with
  | nil => simp at hmem
  | cons hd tl ih =>
    obtain ⟨k, u⟩ := hd
    rw [keysOf, List.map_cons, List.nodup_cons] at hnd
    obtain ⟨hhd, htl⟩ := hnd
    rw [List.mem_cons, Prod.mk.injEq] at hmem
    rw [List.map_cons]
    rcases hmem with ⟨h1, h2⟩ | hmem
    · subst h1
      subst h2
      rw [if_pos (by simp)]
      rw [lookupVal, if_pos rfl]
    · have hk : k ≠ a := by
        intro hk
        rw [← hk] at hmem
        exact hhd (List.mem_map.mpr ⟨(k, v), hmem, rfl⟩)
      rw [if_neg (by simpa using hk)]
      rw [lookupVal, if_neg hk]
      exact ih htl hmem

theorem lookupVal_setOrDrop_self (l : List (Addr × Nat)) (a : Addr) (v w : Nat)
    (hnd : (keysOf l).Nodup) (hmem : (a, v) ∈ l) :
    lookupVal (setOrDrop l a w) a = if w = 0 then none else some w := by
  rw [setOrDrop]
  split_ifs with hw
  · exact lookupVal_filter_self l a
  · exact lookupVal_map_set_self l a v w hnd hmem

theorem lookupVal_filter_other (l : List (Addr × Nat)) (a b : Addr)
    (hab : b ≠ a) :
    lookupVal (l.filter (fun p => p.1 ≠ a)) b = lookupVal l b := by
  induction l with
  | nil => rfl
  | cons hd tl ih =>
    obtain ⟨k, u⟩ := hd
    rw [List.filter_cons]
    by_cases hk : k = a
    · rw [if_neg (by simp [hk])]
      rw [ih]
      rw [lookupVal, if_neg (by rw [hk]; exact fun hh => hab hh.symm)]
    · rw [if_pos (by simp [hk])]
      rw [lookupVal, lookupVal]
      by_cases hkb : k = b
      · rw [if_pos hkb, if_pos hkb]
      · rw [if_neg hkb, if_neg hkb]
        exact ih

theorem lookupVal_map_set_other (l : List (Addr × Nat)) (a b : Addr) (w : Nat)
    (hab : b ≠ a) :
    lookupVal (l.map (fun p => if p.1 = a then (a, w) else p)) b
      = lookupVal l b := by
  induction l with
  | nil => rfl
  | cons hd tl ih =>
    obtain ⟨k, u⟩ := hd
    rw [List.map_cons]
    by_cases hk : k = a
    · rw [if_pos (by simp [hk])]
      rw [lookupVal, if_neg (fun hh => hab hh.symm)]
      rw [lookupVal, if_neg (by rw [hk]; exact fun hh => hab hh.symm)]
      exact ih
    · rw [if_neg (by simpa using hk)]
      rw [lookupVal, lookupVal]
      by_cases hkb : k = b
      · rw [if_pos hkb, if_pos hkb]
      · rw [if_neg hkb, if_neg hkb]
        exact ih

theorem lookupVal_setOrDrop_other (l : List (Addr × Nat)) (a b : Addr) (w : Nat)
    (hab : b ≠ a) :
    lookupVal (setOrDrop l a w) b = lookupVal l b := by
  rw [setOrDrop]
  split_ifs with hw
  · exact lookupVal_filter_other l a b hab
  · exact lookupVal_map_set_other l a b w hab

theorem val_le_sumVals (l : List (Addr × Nat)) (a : Addr) (v : Nat)
    (hmem : (a, v) ∈ l) : v ≤ sumVals l := by
  induction l with
  | nil => simp at hmem
  | cons hd tl ih =>
    obtain ⟨k, u⟩ := hd
    rw [List.mem_cons, Prod.mk.injEq] at hmem
    simp only [sumVals, List.map_cons, List.sum_cons]
    rcases hmem with ⟨h1, h2⟩ | hmem
    · subst h2
      omega
    · have := ih hmem
      rw [sumVals] at this
      omega

theorem eq_nil_of_sumVals_zero (l : List (Addr × Nat))
    (hpos : ∀ p ∈ l, 0 < p.2) (hz : sumVals l = 0) : l = [] := by
  cases l with
  | nil => rfl
  | cons hd tl =>
    exfalso
    have h1 := hpos hd (List.mem_cons_self _ _)
    rw [sumVals, List.map_cons, List.sum_cons] at hz
    omega

theorem applyPlan_nil (b : Addr → Int) : applyPlan [] b = b := rfl

theorem applyPlan_cons (t : Transfer) (p : List Transfer) (b : Addr → Int) :
    applyPlan (t :: p) b = applyPlan p (applyTransfer t b) := rfl

theorem applyPlan_congr (p : List Transfer) (b b' : Addr → Int)
    (h : ∀ x, b x = b' x) : ∀ x, applyPlan p b x = applyPlan p b' x := by
  induction p generalizing b b' with
  | nil => exact h
  | cons t p ih =>
    intro x
    rw [applyPlan_cons, applyPlan_cons]
    apply ih
    intro y
    simp only [applyTransfer, h]

/-- One iteration of the greedy netting loop preserves the loop invariant,
reduces each side's total by the settled amount, realizes the recorded
transfer on the represented balance vector, and shrinks the mappings:
the side whose remaining value hits zero loses exactly one entry and the
other side keeps its size. -/
theorem greedy_step (cs ds : List (Addr × Nat)) (c d : Addr × Nat) (s : Nat)
    (hcm : c ∈ cs) (hdm : d ∈ ds) (hs : s = min c.2 d.2)
    (hinv : GreedyInv cs ds) :
    GreedyInv (setOrDrop cs c.1 (c.2 - s)) (setOrDrop ds d.1 (d.2 - s)) ∧
    sumVals (setOrDrop cs c.1 (c.2 - s)) + s = sumVals cs ∧
    sumVals (setOrDrop ds d.1 (d.2 - s)) + s = sumVals ds ∧
    (∀ x, balOf (setOrDrop cs c.1 (c.2 - s)) (setOrDrop ds d.1 (d.2 - s)) x
        = applyTransfer (Transfer.mk d.1 c.1 s) (balOf cs ds) x) ∧
    (c.2 - s = 0 → (setOrDrop cs c.1 (c.2 - s)).length + 1 = cs.length) ∧
    (d.2 - s = 0 → (setOrDrop ds d.1 (d.2 - s)).length + 1 = ds.length) ∧
    (c.2 - s ≠ 0 → (setOrDrop cs c.1 (c.2 - s)).length = cs.length) ∧
    (d.2 - s ≠ 0 → (setOrDrop ds d.1 (d.2 - s)).length = ds.length) := by
  obtain ⟨hnd, hposc, hposd, hsum⟩ := hinv
  obtain ⟨hndc, hndd, hdisj⟩ := List.nodup_append.mp hnd
  have hckey : c.1 ∈ keysOf cs := List.mem_map.mpr ⟨c, hcm, rfl⟩
  have hdkey : d.1 ∈ keysOf ds := List.mem_map.mpr ⟨d, hdm, rfl⟩
  have hcd : c.1 ≠ d.1 := fun hh => hdisj hckey (hh ▸ hdkey)
  have hsc : s ≤ c.2 := by omega
  have hsd : s ≤ d.2 := by omega
  have hcsum := setOrDrop_sumVals cs c.1 c.2 (c.2 - s) hndc hcm
  have hdsum := setOrDrop_sumVals ds d.1 d.2 (d.2 - s) hndd hdm
  have hcle := val_le_sumVals cs c.1 c.2 hcm
  have hdle := val_le_sumVals ds d.1 d.2 hdm
  refine ⟨⟨?_, ?_, ?_, ?_⟩, by omega, by omega, ?_, ?_, ?_, ?_, ?_⟩
  · exact List.Nodup.sublist
      (List.Sublist.append (keysOf_setOrDrop_sublist cs c.1 (c.2 - s))
        (keysOf_setOrDrop_sublist ds d.1 (d.2 - s))) hnd
  · exact setOrDrop_all_pos cs c.1 (c.2 - s) hposc
  · exact setOrDrop_all_pos ds d.1 (d.2 - s) hposd
  · omega
  · intro x
    have hcnone : lookupVal ds c.1 = none :=
      lookupVal_eq_none ds c.1 (fun hh => hdisj hckey hh)
    have hdnone : lookupVal cs d.1 = none :=
      lookupVal_eq_none cs d.1 (fun hh => hdisj hh hdkey)
    by_cases hxc : x = c.1
    · subst hxc
      have h1 := lookupVal_setOrDrop_self cs c.1 c.2 (c.2 - s) hndc hcm
      have h2 := lookupVal_setOrDrop_other ds d.1 c.1 (d.2 - s) hcd
      have h4 := lookupVal_of_mem cs c.1 c.2 hndc hcm
      rw [balOf, h1, h2, hcnone, intOf_none]
      rw [applyTransfer]
      rw [if_neg hcd, if_pos rfl]
      rw [balOf, h4, hcnone, intOf_some, intOf_none]
      split_ifs with h0
      · rw [intOf_none]
        push_cast
        omega
      · rw [intOf_some]
        push_cast
        omega
    · by_cases hxd : x = d.1
      · subst hxd
        have h1 := lookupVal_setOrDrop_self ds d.1 d.2 (d.2 - s) hndd hdm
        have h2 := lookupVal_setOrDrop_other cs c.1 d.1 (c.2 - s)
          (fun hh => hcd hh.symm)
        have h4 := lookupVal_of_mem ds d.1 d.2 hndd hdm
        rw [balOf, h1, h2, hdnone, intOf_none]
        rw [applyTransfer]
        rw [if_pos rfl]
        rw [balOf, h4, hdnone, intOf_some, intOf_none]
        split_ifs with h0
        · rw [intOf_none]
          push_cast
          omega
        · rw [intOf_some]
          push_cast
          omega
      · have h1 := lookupVal_setOrDrop_other cs c.1 x (c.2 - s) hxc
        have h2 := lookupVal_setOrDrop_other ds d.1 x (d.2 - s) hxd
        rw [balOf, h1, h2, applyTransfer]
        rw [if_neg hxd, if_neg hxc, balOf]
  · intro h0
    rw [h0]
    exact setOrDrop_length_zero cs c.1 c.2 hndc hcm
  · intro h0
    rw [h0]
    exact setOrDrop_length_zero ds d.1 d.2 hndd hdm
  · intro h0
    exact setOrDrop_length_set cs c.1 (c.2 - s) h0
  · intro h0
    exact setOrDrop_length_set ds d.1 (d.2 - s) h0

theorem inv_nil_nil (cs ds : List (Addr × Nat)) (hstop : cs = [] ∨ ds = [])
    (hinv : GreedyInv cs ds) : cs = [] ∧ ds = [] := by
  obtain ⟨_, hposc, hposd, hsum⟩ := hinv
  rcases hstop with h | h
  · subst h
    refine ⟨rfl, eq_nil_of_sumVals_zero ds hposd ?_⟩
    rw [← hsum]
    rfl
  · subst h
    refine ⟨eq_nil_of_sumVals_zero cs hposc ?_, rfl⟩
    rw [hsum]
    rfl

theorem greedy_zeroes (n : Nat) : ∀ (cs ds : List (Addr × Nat)),
    cs.length + ds.length ≤ n → GreedyInv cs ds →
    ∀ x, applyPlan (greedyLoop cs ds) (balOf cs ds) x = 0 := by
  induction n with
  | zero =>
    intro cs ds hlen _ x
    have hc : cs = [] := List.eq_nil_of_length_eq_zero (by omega)
    have hd : ds = [] := List.eq_nil_of_length_eq_zero (by omega)
    subst hc
    subst hd
    rw [greedyLoop.eq_def, dif_pos (Or.inl rfl)]
    simp [applyPlan, balOf, lookupVal, intOf]
  | succ n ih =>
    intro cs ds hlen hinv x
    by_cases hstop : cs = [] ∨ ds = []
    · obtain ⟨hc, hd⟩ := inv_nil_nil cs ds hstop hinv
      subst hc
      subst hd
      rw [greedyLoop.eq_def, dif_pos (Or.inl rfl)]
      simp [applyPlan, balOf, lookupVal, intOf]
    · push_neg at hstop
      obtain ⟨hc, hd⟩ := hstop
      obtain ⟨hinv', hsumc, hsumd, hbal, hl1, hl2, hl3, hl4⟩ :=
        greedy_step cs ds (argmaxD cs) (argmaxD ds)
          (min (argmaxD cs).2 (argmaxD ds).2)
          (argmaxD_mem cs hc) (argmaxD_mem ds hd) rfl hinv
      rw [greedyLoop.eq_def, dif_neg (by push_neg; exact ⟨hc, hd⟩)]
      rw [applyPlan_cons]
      rw [← applyPlan_congr _ _ _ hbal x]
      apply ih _ _ ?_ hinv'
      have hclen : 0 < cs.length := List.length_pos.mpr hc
      have hdlen : 0 < ds.length := List.length_pos.mpr hd
      rcases Nat.le_total (argmaxD cs).2 (argmaxD ds).2 with hle | hle
      · have h0 := hl1 (by omega)
        have h1 := setOrDrop_length_le ds (argmaxD ds).1
          ((argmaxD ds).2 - min (argmaxD cs).2 (argmaxD ds).2)
        omega
      · have h0 := hl2 (by omega)
        have h1 := setOrDrop_length_le cs (argmaxD cs).1
          ((argmaxD cs).2 - min (argmaxD cs).2 (argmaxD ds).2)
        omega

theorem greedy_sum (n : Nat) : ∀ (cs ds : List (Addr × Nat)),
    cs.length + ds.length ≤ n → GreedyInv cs ds →
    sumAmounts (greedyLoop cs ds) = sumVals cs := by
  induction n with
  | zero =>
    intro cs ds hlen _
    have hc : cs = [] := List.eq_nil_of_length_eq_zero (by omega)
    have hd : ds = [] := List.eq_nil_of_length_eq_zero (by omega)
    subst hc
    subst hd
    rw [greedyLoop.eq_def, dif_pos (Or.inl rfl)]
    rfl
  | succ n ih =>
    intro cs ds hlen hinv
    by_cases hstop : cs = [] ∨ ds = []
    · obtain ⟨hc, hd⟩ := inv_nil_nil cs ds hstop hinv
      subst hc
      subst hd
      rw [greedyLoop.eq_def, dif_pos (Or.inl rfl)]
      rfl
    · push_neg at hstop
      obtain ⟨hc, hd⟩ := hstop
      obtain ⟨hinv', hsumc, hsumd, hbal, hl1, hl2, hl3, hl4⟩ :=
        greedy_step cs ds (argmaxD cs) (argmaxD ds)
          (min (argmaxD cs).2 (argmaxD ds).2)
          (argmaxD_mem cs hc) (argmaxD_mem ds hd) rfl hinv
      rw [greedyLoop.eq_def, dif_neg (by push_neg; exact ⟨hc, hd⟩)]
      have hclen : 0 < cs.length := List.length_pos.mpr hc
      have hdlen : 0 < ds.length := List.length_pos.mpr hd
      have hrec : sumAmounts (greedyLoop
          (setOrDrop cs (argmaxD cs).1
            ((argmaxD cs).2 - min (argmaxD cs).2 (argmaxD ds).2))
          (setOrDrop ds (argmaxD ds).1
            ((argmaxD ds).2 - min (argmaxD cs).2 (argmaxD ds).2)))
          = sumVals (setOrDrop cs (argmaxD cs).1
            ((argmaxD cs).2 - min (argmaxD cs).2 (argmaxD ds).2)) := by
        apply ih _ _ ?_ hinv'
        rcases Nat.le_total (argmaxD cs).2 (argmaxD ds).2 with hle | hle
        · have h0 := hl1 (by omega)
          have h1 := setOrDrop_length_le ds (argmaxD ds).1
            ((argmaxD ds).2 - min (argmaxD cs).2 (argmaxD ds).2)
          omega
        · have h0 := hl2 (by omega)
          have h1 := setOrDrop_length_le cs (argmaxD cs).1
            ((argmaxD cs).2 - min (argmaxD cs).2 (argmaxD ds).2)
          omega
      rw [sumAmounts, List.map_cons, List.sum_cons]
      rw [sumAmounts] at hrec
      rw [hrec]
      dsimp only
      omega

theorem greedy_bound (n : Nat) : ∀ (cs ds : List (Addr × Nat)),
    cs.length + ds.length ≤ n → GreedyInv cs ds →
    (greedyLoop cs ds).length ≤ cs.length + ds.length - 1 := by
  induction n with
  | zero =>
    intro cs ds hlen _
    have hc : cs = [] := List.eq_nil_of_length_eq_zero (by omega)
    have hd : ds = [] := List.eq_nil_of_length_eq_zero (by omega)
    subst hc
    subst hd
    rw [greedyLoop.eq_def, dif_pos (Or.inl rfl)]
    simp
  | succ n ih =>
    intro cs ds hlen hinv
    by_cases hstop : cs = [] ∨ ds = []
    · obtain ⟨hc, hd⟩ := inv_nil_nil cs ds hstop hinv
      subst hc
      subst hd
      rw [greedyLoop.eq_def, dif_pos (Or.inl rfl)]
      simp
    · push_neg at hstop
      obtain ⟨hc, hd⟩ := hstop
      obtain ⟨hinv', hsumc, hsumd, hbal, hl1, hl2, hl3, hl4⟩ :=
        greedy_step cs ds (argmaxD cs) (argmaxD ds)
          (min (argmaxD cs).2 (argmaxD ds).2)
          (argmaxD_mem cs hc) (argmaxD_mem ds hd) rfl hinv
      rw [greedyLoop.eq_def, dif_neg (by push_neg; exact ⟨hc, hd⟩)]
      rw [List.length_cons]
      have hclen : 0 < cs.length := List.length_pos.mpr hc
      have hdlen : 0 < ds.length := List.length_pos.mpr hd
      have hrec := ih (setOrDrop cs (argmaxD cs).1
            ((argmaxD cs).2 - min (argmaxD cs).2 (argmaxD ds).2))
          (setOrDrop ds (argmaxD ds).1
            ((argmaxD ds).2 - min (argmaxD cs).2 (argmaxD ds).2))
      rcases Nat.le_total (argmaxD cs).2 (argmaxD ds).2 with hle | hle
      · have h0 := hl1 (by omega)
        by_cases hd0 : (argmaxD ds).2 - min (argmaxD cs).2 (argmaxD ds).2 = 0
        · have h1 := hl2 hd0
          have hb := hrec (by omega) hinv'
          omega
        · have h1 := hl4 hd0
          have hb := hrec (by omega) hinv'
          omega
      · have h0 := hl2 (by omega)
        by_cases hc0 : (argmaxD cs).2 - min (argmaxD cs).2 (argmaxD ds).2 = 0
        · have h1 := hl1 hc0
          have hb := hrec (by omega) hinv'
          omega
        · have h1 := hl3 hc0
          have hb := hrec (by omega) hinv'
          omega

theorem creditorsOf_cons (p : Addr × Int) (l : List (Addr × Int)) :
    creditorsOf (p :: l)
      = if 0 < p.2 then (p.1, p.2.toNat) :: creditorsOf l
        else creditorsOf l := by
  split_ifs with h
  · simp [creditorsOf, List.filterMap_cons, h]
  · simp [creditorsOf, List.filterMap_cons, h]

theorem debtorsOf_cons (p : Addr × Int) (l : List (Addr × Int)) :
    debtorsOf (p :: l)
      = if p.2 < 0 then (p.1, (-p.2).toNat) :: debtorsOf l
        else debtorsOf l := by
  split_ifs with h
  · simp [debtorsOf, List.filterMap_cons, h]
  · simp [debtorsOf, List.filterMap_cons, h]

theorem not_mem_keys_creditorsOf (l : List (Addr × Int)) (a : Addr)
    (h : a ∉ l.map Prod.fst) : a ∉ keysOf (creditorsOf l) := by
  induction l with
  | nil => simp [creditorsOf, keysOf]
  | cons p l ih =>
    rw [List.map_cons, List.mem_cons] at h
    push_neg at h
    rw [creditorsOf_cons]
    split_ifs with hp
    · rw [keysOf, List.map_cons, List.mem_cons]
      push_neg
      exact ⟨h.1, ih h.2⟩
    · exact ih h.2

theorem not_mem_keys_debtorsOf (l : List (Addr × Int)) (a : Addr)
    (h : a ∉ l.map Prod.fst) : a ∉ keysOf (debtorsOf l) := by
  induction l with
  | nil => simp [debtorsOf, keysOf]
  | cons p l ih =>
    rw [List.map_cons, List.mem_cons] at h
    push_neg at h
    rw [debtorsOf_cons]
    split_ifs with hp
    · rw [keysOf, List.map_cons, List.mem_cons]
      push_neg
      exact ⟨h.1, ih h.2⟩
    · exact ih h.2

theorem nodup_keys_split (l : List (Addr × Int))
    (hnd : (l.map Prod.fst).Nodup) :
    (keysOf (creditorsOf l) ++ keysOf (debtorsOf l)).Nodup := by
  induction l with
  | nil => simp [creditorsOf, debtorsOf, keysOf]
  | cons p l ih =>
    rw [List.map_cons, List.nodup_cons] at hnd
    obtain ⟨hp, htl⟩ := hnd
    have ihl := ih htl
    rw [creditorsOf_cons, debtorsOf_cons]
    by_cases h1 : 0 < p.2
    · rw [if_pos h1, if_neg (by omega)]
      simp only [keysOf, List.map_cons] at ihl ⊢
      rw [List.cons_append, List.nodup_cons]
      refine ⟨?_, ihl⟩
      intro hmm
      rw [List.mem_append] at hmm
      rcases hmm with hmm | hmm
      · exact not_mem_keys_creditorsOf l p.1 hp hmm
      · exact not_mem_keys_debtorsOf l p.1 hp hmm
    · by_cases h2 : p.2 < 0
      · rw [if_neg h1, if_pos h2]
        simp only [keysOf, List.map_cons] at ihl ⊢
        rw [List.nodup_middle, List.nodup_cons]
        refine ⟨?_, ihl⟩
        intro hmm
        rw [List.mem_append] at hmm
        rcases hmm with hmm | hmm
        · exact not_mem_keys_creditorsOf l p.1 hp hmm
        · exact not_mem_keys_debtorsOf l p.1 hp hmm
      · rw [if_neg h1, if_neg h2]
        exact ihl

theorem creditorsOf_pos (l : List (Addr × Int)) :
    ∀ p ∈ creditorsOf l, 0 < p.2 := by
  intro p hp
  rw [creditorsOf] at hp
  obtain ⟨q, _, hfq⟩ := List.mem_filterMap.mp hp
  split_ifs at hfq with h
  all_goals first
    | (rw [Option.some_inj] at hfq
       rw [← hfq]
       show 0 < q.2.toNat
       omega)
    | exact absurd hfq (by simp)

theorem debtorsOf_pos (l : List (Addr × Int)) :
    ∀ p ∈ debtorsOf l, 0 < p.2 := by
  intro p hp
  rw [debtorsOf] at hp
  obtain ⟨q, _, hfq⟩ := List.mem_filterMap.mp hp
  split_ifs at hfq with h
  all_goals first
    | (rw [Option.some_inj] at hfq
       rw [← hfq]
       show 0 < (-q.2).toNat
       omega)
    | exact absurd hfq (by simp)

theorem sum_creditors_sub_debtors (l : List (Addr × Int)) :
    (sumVals (creditorsOf l) : Int) - (sumVals (debtorsOf l) : Int)
      = (l.map Prod.snd).sum := by
  induction l with
  | nil => simp [creditorsOf, debtorsOf, sumVals]
  | cons p l ih =>
    rw [creditorsOf_cons, debtorsOf_cons, List.map_cons, List.sum_cons]
    by_cases h1 : 0 < p.2
    · rw [if_pos h1, if_neg (by omega)]
      simp only [sumVals, List.map_cons, List.sum_cons] at ih ⊢
      omega
    · by_cases h2 : p.2 < 0
      · rw [if_neg h1, if_pos h2]
        simp only [sumVals, List.map_cons, List.sum_cons] at ih ⊢
        omega
      · rw [if_neg h1, if_neg h2]
        rw [ih]
        omega

/-- The two mappings built from a duplicate-free, zero-sum balance vector
satisfy the greedy loop invariant. -/
theorem inv_of_balances (balances : List (Addr × Int))
    (hnd : (balances.map Prod.fst).Nodup)
    (hz : (balances.map Prod.snd).sum = 0) :
    GreedyInv (creditorsOf balances) (debtorsOf balances) := by
  refine ⟨nodup_keys_split balances hnd, creditorsOf_pos balances,
    debtorsOf_pos balances, ?_⟩
  have hs := sum_creditors_sub_debtors balances
  rw [hz] at hs
  omega

theorem balOf_cons_left (k : Addr) (x : Nat) (C D : List (Addr × Nat))
    (a : Addr) (hka : k ≠ a) : balOf ((k, x) :: C) D a = balOf C D a := by
  rw [balOf, balOf, lookupVal, if_neg hka]

theorem balOf_cons_right (k : Addr) (x : Nat) (C D : List (Addr × Nat))
    (a : Addr) (hka : k ≠ a) : balOf C ((k, x) :: D) a = balOf C D a := by
  rw [balOf, balOf, lookupVal, if_neg hka]

theorem balanceFn_eq_balOf (l : List (Addr × Int))
    (hnd : (l.map Prod.fst).Nodup) (a : Addr) :
    balanceFn l a = balOf (creditorsOf l) (debtorsOf l) a := by
  induction l with
  | nil =>
    simp [balanceFn, lookupBal, balOf, creditorsOf, debtorsOf, lookupVal,
      intOf, intOfZ, List.filterMap_nil]
  | cons p l ih =>
    obtain ⟨k, v⟩ := p
    rw [List.map_cons, List.nodup_cons] at hnd
    obtain ⟨hk, htl⟩ := hnd
    have hihl := ih htl
    rw [creditorsOf_cons, debtorsOf_cons]
    dsimp only
    by_cases hka : k = a
    · subst hka
      rw [balanceFn, lookupBal, if_pos rfl, intOfZ_some]
      have hcnone : lookupVal (creditorsOf l) k = none :=
        lookupVal_eq_none _ k (not_mem_keys_creditorsOf l k hk)
      have hdnone : lookupVal (debtorsOf l) k = none :=
        lookupVal_eq_none _ k (not_mem_keys_debtorsOf l k hk)
      rcases lt_trichotomy (0 : Int) v with hv | hv | hv
      · rw [if_pos hv, if_neg (by omega)]
        rw [balOf, lookupVal, if_pos rfl, hdnone, intOf_some, intOf_none]
        omega
      · rw [if_neg (by omega), if_neg (by omega)]
        rw [balOf, hcnone, hdnone, intOf_none]
        omega
      · rw [if_neg (by omega), if_pos hv]
        rw [balOf, lookupVal, if_pos rfl, hcnone, intOf_some, intOf_none]
        omega
    · have hbf : balanceFn ((k, v) :: l) a = balanceFn l a := by
        rw [balanceFn, balanceFn, lookupBal, if_neg hka]
      rw [hbf]
      split_ifs with h1 h2 h3
      · exact absurd h2 (by omega)
      · rw [balOf_cons_left k _ _ _ a hka]
        exact hihl
      · rw [balOf_cons_right k _ _ _ a hka]
        exact hihl
      · exact hihl

/-- C4: for any duplicate-free group balance vector summing to zero, the
greedy plan's total equals the total of the positive balances and the
total of the negative balances' magnitudes, and applying every planned
transfer to the balance vector leaves every party that appears in the
plan with balance exactly 0. -/
theorem settlement_plan_postcondition (balances : List (Addr × Int))
    (hnd : (balances.map Prod.fst).Nodup)
    (hz : (balances.map Prod.snd).sum = 0) :
    sumAmounts (calculateOptimalSettlements balances)
        = sumVals (creditorsOf balances) ∧
    sumAmounts (calculateOptimalSettlements balances)
        = sumVals (debtorsOf balances) ∧
    ∀ t ∈ calculateOptimalSettlements balances,
      applyPlan (calculateOptimalSettlements balances) (balanceFn balances)
          t.from_address = 0 ∧
      applyPlan (calculateOptimalSettlements balances) (balanceFn balances)
          t.to_address = 0 := by
  have hinv := inv_of_balances balances hnd hz
  have hsum := greedy_sum
    ((creditorsOf balances).length + (debtorsOf balances).length)
    (creditorsOf balances) (debtorsOf balances) le_rfl hinv
  have hzero := greedy_zeroes
    ((creditorsOf balances).length + (debtorsOf balances).length)
    (creditorsOf balances) (debtorsOf balances) le_rfl hinv
  have hplan : ∀ x,
      applyPlan (calculateOptimalSettlements balances) (balanceFn balances) x
        = 0 := by
    intro x
    rw [calculateOptimalSettlements]
    rw [applyPlan_congr _ _ _ (balanceFn_eq_balOf balances hnd) x]
    exact hzero x
  refine ⟨hsum, hsum.trans hinv.2.2.2, fun t _ => ⟨hplan _, hplan _⟩⟩

theorem settlement_plan_postcondition_witness :
    sumAmounts (calculateOptimalSettlements [(1, 100), (2, -50), (3, -50)])
        = sumVals (creditorsOf [(1, 100), (2, -50), (3, -50)]) ∧
    sumAmounts (calculateOptimalSettlements [(1, 100), (2, -50), (3, -50)])
        = sumVals (debtorsOf [(1, 100), (2, -50), (3, -50)]) ∧
    ∀ t ∈ calculateOptimalSettlements [(1, 100), (2, -50), (3, -50)],
      applyPlan (calculateOptimalSettlements [(1, 100), (2, -50), (3, -50)])
          (balanceFn [(1, 100), (2, -50), (3, -50)]) t.from_address = 0 ∧
      applyPlan (calculateOptimalSettlements [(1, 100), (2, -50), (3, -50)])
          (balanceFn [(1, 100), (2, -50), (3, -50)]) t.to_address = 0 :=
  settlement_plan_postcondition [(1, 100), (2, -50), (3, -50)]
    (by decide) (by decide)

/-- C8: the greedy netting loop terminates (it is a total function of its
input), and for a duplicate-free zero-sum balance vector with `C`
creditors and `D` debtors it performs at most `C + D - 1` iterations, so
the plan holds at most `C + D - 1` transfers. -/
theorem settlement_plan_termination_bound (balances : List (Addr × Int))
    (hnd : (balances.map Prod.fst).Nodup)
    (hz : (balances.map Prod.snd).sum = 0) :
    (calculateOptimalSettlements balances).length
      ≤ (creditorsOf balances).length + (debtorsOf balances).length - 1 :=
  greedy_bound
    ((creditorsOf balances).length + (debtorsOf balances).length)
    (creditorsOf balances) (debtorsOf balances) le_rfl
    (inv_of_balances balances hnd hz)

theorem settlement_plan_termination_bound_witness :
    (calculateOptimalSettlements [(1, 100), (2, -50), (3, -50)]).length
      ≤ (creditorsOf [(1, 100), (2, -50), (3, -50)]).length
        + (debtorsOf [(1, 100), (2, -50), (3, -50)]).length - 1 :=
  settlement_plan_termination_bound [(1, 100), (2, -50), (3, -50)]
    (by decide) (by decide)

end AlgoCampus
